import Mathlib

/-!
Verification of the mountainsort5 post-detection consolidation stage:
the pairwise merge step (`mountainsort5/core/pairwise_merge_step.py`) and
the chunked classification orchestration
(`mountainsort5/schemes/sorting_scheme2.py`).

The Python source is shallowly embedded: numpy arrays become lists,
template amplitudes become rationals, spike times become integers, and
the `merges` dict becomes an association list queried through
`List.lookup`.  External collaborators that the spec declares out of
scope (PCA reduction, isosplit clustering, the statistical merge test)
are abstracted as function parameters.
-/

/-! ## `find_duplicate_times` (pairwise_merge_step.py, lines 78-88)

The Python routine walks the `times` array keeping a `deleted` mask:
an undeleted index `i1` becomes an anchor and the inner `while` marks
every following index `i2` with `times[i2] <= times[i1] + tol` as
deleted, appending it to the returned list.  Because the marked
indices form a contiguous block starting at `i1 + 1`, the outer loop
resumes at the first index past the block, which becomes the next
anchor.  The recursion below threads the current anchor value instead
of the mask; `a` is the anchor's time and `i` the index of the head of
the remaining list. -/

def fdtAux (tol : Int) : Int → Nat → List Int → List Nat
  | _, _, [] => []
  | a, i, t :: rest =>
    if t ≤ a + tol then i :: fdtAux tol a (i + 1) rest
    else fdtAux tol t (i + 1) rest

def find_duplicate_times (times : List Int) (tol : Int) : List Nat :=
  match times with
  | [] => []
  | t :: rest => fdtAux tol t 1 rest

/-- The times that survive an anchor scan started at anchor value `a`:
the complement of the indices produced by `fdtAux`. -/
def keptAux (tol : Int) : Int → List Int → List Int
  | _, [] => []
  | a, t :: rest =>
    if t ≤ a + tol then keptAux tol a rest
    else t :: keptAux tol t rest

def keptTimes (times : List Int) (tol : Int) : List Int :=
  match times with
  | [] => []
  | t :: rest => t :: keptAux tol t rest

/-- The events kept by `find_duplicate_times`: the caller
(`pairwise_merge_step`, lines 61-68) zeros out the labels at the
returned indices, so the kept events are those whose index is not in
the returned list. -/
def keptAfterDedup (times : List Int) (tol : Int) : List Int :=
  ((times.enum.filter (fun p => decide (p.1 ∉ find_duplicate_times times tol))).map Prod.snd)

/-! Basic facts about `fdtAux`. -/

theorem fdtAux_lb (tol : Int) :
    ∀ (a : Int) (i : Nat) (ts : List Int), ∀ x ∈ fdtAux tol a i ts, i ≤ x := by
  intro a i ts
  induction ts generalizing a i with
  | nil => intro x hx; simp [fdtAux] at hx
  | cons t rest ih =>
    intro x hx
    simp only [fdtAux] at hx
    split at hx
    · rcases List.mem_cons.mp hx with h | h
      · omega
      · have := ih a (i + 1) x h; omega
    · have := ih t (i + 1) x hx; omega

theorem fdtAux_ub (tol : Int) :
    ∀ (a : Int) (i : Nat) (ts : List Int), ∀ x ∈ fdtAux tol a i ts, x < i + ts.length := by
  intro a i ts
  induction ts generalizing a i with
  | nil => intro x hx; simp [fdtAux] at hx
  | cons t rest ih =>
    intro x hx
    simp only [fdtAux] at hx
    split at hx
    · rcases List.mem_cons.mp hx with h | h
      · simp only [List.length_cons]; omega
      · have := ih a (i + 1) x h; simp only [List.length_cons]; omega
    · have := ih t (i + 1) x hx; simp only [List.length_cons]; omega

theorem fdtAux_sorted (tol : Int) :
    ∀ (a : Int) (i : Nat) (ts : List Int), List.Sorted (· < ·) (fdtAux tol a i ts) := by
  intro a i ts
  induction ts generalizing a i with
  | nil => simp [fdtAux]
  | cons t rest ih =>
    simp only [fdtAux]
    split
    · exact List.sorted_cons.mpr ⟨fun x hx => Nat.lt_of_lt_of_le (by omega) (fdtAux_lb tol a (i + 1) rest x hx), ih a (i + 1)⟩
    · exact ih t (i + 1)

theorem fdtAux_all (tol : Int) :
    ∀ (a : Int) (i : Nat) (ts : List Int), (∀ t ∈ ts, t ≤ a + tol) →
      fdtAux tol a i ts = List.range' i ts.length := by
  intro a i ts
  induction ts generalizing i with
  | nil => intro _; simp [fdtAux]
  | cons t rest ih =>
    intro h
    simp only [fdtAux, List.length_cons]
    rw [if_pos (h t (List.mem_cons_self t rest)), List.range'_succ]
    exact congrArg _ (ih (i + 1) (fun x hx => h x (List.mem_cons_of_mem t hx)))

/-- C2 counterexample: the strictly ascending times `0, 3, 6` with
tolerance `3` form a chain in which each event lies within `tol` of the
previous one, yet `find_duplicate_times` removes only index `1`: index
`2` (time `6`) drifts beyond `tol` of the anchor `0`, becomes a new
anchor, and is kept, contradicting the claim that the whole chain
collapses into the first anchor. -/
theorem c2_counterexample :
    (0 : Int) < 3 ∧ (3 : Int) < 6 ∧ (3 : Int) ≤ 0 + 3 ∧ (6 : Int) ≤ 3 + 3 ∧
      find_duplicate_times [0, 3, 6] 3 = [1] := by decide

/-- C2 (amended): the collapse is anchor-based, not chain-based.  For a
time-ascending sequence `t0 :: ts`, if every later event lies within
`tol` of the first anchor `t0` itself, then all of the indices
`1 .. ts.length` are removed.  An event beyond `t0 + tol` instead
becomes a new anchor and is kept, even when it is within `tol` of its
predecessor. -/
theorem c2_anchor_chain_collapsed (tol t0 : Int) (ts : List Int)
    (_hsort : List.Sorted (· < ·) (t0 :: ts))
    (hall : ∀ t ∈ ts, t ≤ t0 + tol) :
    find_duplicate_times (t0 :: ts) tol = List.range' 1 ts.length := by
  simp only [find_duplicate_times]
  exact fdtAux_all tol t0 1 ts hall

/-- Witness for C2's amended theorem at times `0, 2, 3` and `tol = 3`. -/
theorem c2_anchor_chain_collapsed_witness :
    List.Sorted (· < ·) [(0 : Int), 2, 3] ∧ (∀ t ∈ [(2 : Int), 3], t ≤ 0 + 3) ∧
      find_duplicate_times [0, 2, 3] 3 = List.range' 1 2 :=
  ⟨by decide, by decide, c2_anchor_chain_collapsed 3 0 [2, 3] (by decide) (by decide)⟩

/-- C10: the returned index list is strictly increasing (hence has no
repeated index) and every element lies in `[1, times.length)`; in
particular index `0` is never returned, so the caller's write
`new_labels[inds0[duplicate_inds]] = 0` addresses valid, distinct
positions and never touches the first event of a unit. -/
theorem c10_duplicate_indices_valid (times : List Int) (tol : Int) :
    List.Sorted (· < ·) (find_duplicate_times times tol) ∧
      (find_duplicate_times times tol).Nodup ∧
      ∀ x ∈ find_duplicate_times times tol, 1 ≤ x ∧ x < times.length := by
  match times with
  | [] => simp [find_duplicate_times]
  | t :: rest =>
    refine ⟨fdtAux_sorted tol t 1 rest, (fdtAux_sorted tol t 1 rest).nodup, ?_⟩
    intro x hx
    have h1 := fdtAux_lb tol t 1 rest x hx
    have h2 := fdtAux_ub tol t 1 rest x hx
    simp only [List.length_cons]
    omega

theorem mem_enumFrom_le {α : Type _} :
    ∀ (i : Nat) (ts : List α) (p : Nat × α), p ∈ List.enumFrom i ts → i ≤ p.1 := by
  intro i ts
  induction ts generalizing i with
  | nil => intro p hp; simp [List.enumFrom] at hp
  | cons t rest ih =>
    intro p hp
    rcases List.mem_cons.mp hp with h | h
    · subst h; exact Nat.le_refl i
    · have := ih (i + 1) p h; omega

theorem keptAux_eq (tol : Int) :
    ∀ (ts : List Int) (a : Int) (i : Nat),
      ((List.enumFrom i ts).filter (fun p => decide (p.1 ∉ fdtAux tol a i ts))).map Prod.snd
        = keptAux tol a ts := by
  intro ts
  induction ts with
  | nil => intro a i; simp [fdtAux, keptAux]
  | cons t rest ih =>
    intro a i
    by_cases h : t ≤ a + tol
    · have hF : fdtAux tol a i (t :: rest) = i :: fdtAux tol a (i + 1) rest := by
        simp only [fdtAux, if_pos h]
      have hK : keptAux tol a (t :: rest) = keptAux tol a rest := by
        simp only [keptAux, if_pos h]
      rw [hF, hK, List.enumFrom_cons]
      rw [List.filter_cons, if_neg (by simp)]
      have hcongr : List.filter
            (fun p : Nat × Int => decide (p.1 ∉ i :: fdtAux tol a (i + 1) rest))
            (List.enumFrom (i + 1) rest)
          = List.filter (fun p : Nat × Int => decide (p.1 ∉ fdtAux tol a (i + 1) rest))
            (List.enumFrom (i + 1) rest) := by
        apply List.filter_congr
        intro p hp
        have hge := mem_enumFrom_le (i + 1) rest p hp
        have : (p.1 ∉ i :: fdtAux tol a (i + 1) rest) ↔
            (p.1 ∉ fdtAux tol a (i + 1) rest) := by
          simp only [List.mem_cons]
          constructor
          · intro hn hm; exact hn (Or.inr hm)
          · intro hn hm
            rcases hm with hm | hm
            · omega
            · exact hn hm
        exact decide_eq_decide.mpr this
      rw [hcongr]
      exact ih a (i + 1)
    · have hF : fdtAux tol a i (t :: rest) = fdtAux tol t (i + 1) rest := by
        simp only [fdtAux, if_neg h]
      have hK : keptAux tol a (t :: rest) = t :: keptAux tol t rest := by
        simp only [keptAux, if_neg h]
      rw [hF, hK, List.enumFrom_cons]
      have hni : (i : Nat) ∉ fdtAux tol t (i + 1) rest := by
        intro hmem
        have := fdtAux_lb tol t (i + 1) rest i hmem
        omega
      rw [List.filter_cons, if_pos (by simpa using hni), List.map_cons]
      exact congrArg _ (ih t (i + 1))

theorem keptAfterDedup_eq (times : List Int) (tol : Int) :
    keptAfterDedup times tol = keptTimes times tol := by
  match times with
  | [] => simp [keptAfterDedup, keptTimes, find_duplicate_times, List.enum]
  | t :: rest =>
    simp only [keptAfterDedup, keptTimes, find_duplicate_times, List.enum, List.enumFrom_cons]
    have hni : (0 : Nat) ∉ fdtAux tol t 1 rest := by
      intro hmem
      have := fdtAux_lb tol t 1 rest 0 hmem
      omega
    rw [List.filter_cons, if_pos (by simpa using hni), List.map_cons]
    exact congrArg _ (keptAux_eq tol rest t 1)

theorem fdtAux_keptAux (tol : Int) :
    ∀ (ts : List Int) (a : Int) (i : Nat), fdtAux tol a i (keptAux tol a ts) = [] := by
  intro ts
  induction ts with
  | nil => intro a i; simp [keptAux, fdtAux]
  | cons t rest ih =>
    intro a i
    simp only [keptAux]
    by_cases h : t ≤ a + tol
    · rw [if_pos h]; exact ih a i
    · rw [if_neg h]
      simp only [fdtAux, if_neg h]
      exact ih t (i + 1)

/-- C9: the events kept by `find_duplicate_times` are a sublist of the
input, the earliest event of the sequence (and, by the structural
identity with the anchor scan `keptTimes`, the earliest event of every
tolerance-chain, i.e. every anchor) is preserved, and re-running
`find_duplicate_times` on the kept subsequence removes nothing: the
operation is idempotent. -/
theorem c9_dedup_idempotent (times : List Int) (tol : Int) :
    (keptAfterDedup times tol).Sublist times ∧
      (keptAfterDedup times tol).head? = times.head? ∧
      keptAfterDedup times tol = keptTimes times tol ∧
      find_duplicate_times (keptAfterDedup times tol) tol = [] := by
  refine ⟨?_, ?_, keptAfterDedup_eq times tol, ?_⟩
  · have h1 : (times.enum.filter
        (fun p => decide (p.1 ∉ find_duplicate_times times tol))).Sublist times.enum :=
      List.filter_sublist _
    have h2 := h1.map Prod.snd
    rw [List.enum_map_snd] at h2
    exact h2
  · rw [keptAfterDedup_eq]
    match times with
    | [] => rfl
    | t :: rest => rfl
  · rw [keptAfterDedup_eq]
    match times with
    | [] => rfl
    | t :: rest =>
      simp only [keptTimes, find_duplicate_times]
      exact fdtAux_keptAux tol rest t 1

/-! ## `TimeChunk` and `get_time_chunks` (sorting_scheme2.py, lines 174-201)

`TimeChunk.__init__` stores `start`, `end`, `padding_left`,
`padding_right` and derives `total_size = end - start + padding_left +
padding_right`.  The Python field `end` is a Lean keyword, so it is
written `«end»` here.

`get_time_chunks` is a `while start < num_samples` loop; the Lean
embedding uses explicit fuel because the Python loop does not terminate
when `chunk_size = 0` and `num_samples > 0` (`start = end` never
advances).  `get_time_chunks` supplies `num_samples + 1` units of fuel,
which is enough for every terminating execution since each iteration
advances `start` by at least one when `chunk_size ≥ 1`. -/

structure TimeChunk where
  start : Nat
  «end» : Nat
  padding_left : Nat
  padding_right : Nat
deriving DecidableEq

def TimeChunk.total_size (c : TimeChunk) : Nat :=
  c.«end» - c.start + c.padding_left + c.padding_right

def getTimeChunksGo (num_samples chunk_size padding : Nat) : Nat → Nat → Option (List TimeChunk)
  | 0, start => if start < num_samples then none else some []
  | fuel + 1, start =>
    if start < num_samples then
      let e := if start + chunk_size > num_samples then num_samples else start + chunk_size
      let pl := min padding start
      let pr := min padding (num_samples - e)
      match getTimeChunksGo num_samples chunk_size padding fuel e with
      | none => none
      | some rest => some (⟨start, e, pl, pr⟩ :: rest)
    else some []

def get_time_chunks (num_samples chunk_size padding : Nat) : Option (List TimeChunk) :=
  getTimeChunksGo num_samples chunk_size padding (num_samples + 1) 0

/-- The chunk core regions, read in order, tile `[pos, N)` exactly:
each chunk starts where the previous one ended, is nonempty, and the
last one ends at `N`.  This expresses orderedness, absence of gaps and
of overlaps, and exact coverage of `[0, N)` when `pos = 0`. -/
def coresTile (N : Nat) : Nat → List TimeChunk → Prop
  | pos, [] => pos = N
  | pos, c :: rest => c.start = pos ∧ pos < c.«end» ∧ coresTile N c.«end» rest

theorem getTimeChunksGo_zero_chunk_size (N pad : Nat) :
    ∀ (fuel start : Nat), start < N → getTimeChunksGo N 0 pad fuel start = none := by
  intro fuel
  induction fuel with
  | zero => intro start h; simp [getTimeChunksGo, h]
  | succ fuel ih =>
    intro start h
    simp only [getTimeChunksGo, if_pos h]
    have he : (if start + 0 > N then N else start + 0) = start := by
      rw [if_neg (by omega)]; omega
    rw [he, ih start h]

/-- C4 counterexample: with `num_samples = 5`, `chunk_size = 0` and
`padding = 2` the Python `while` loop never advances `start` and never
returns; in the fuel embedding the canonical fuel is exhausted (and by
`getTimeChunksGo_zero_chunk_size` no amount of fuel suffices), so no
chunk sequence is produced, contradicting the claim for an arbitrary
chunk size. -/
theorem c4_counterexample : get_time_chunks 5 0 2 = none :=
  getTimeChunksGo_zero_chunk_size 5 2 6 0 (by decide)

theorem getTimeChunksGo_sound (N cs pad : Nat) (hcs : 1 ≤ cs) :
    ∀ (fuel start : Nat) (l : List TimeChunk), start ≤ N →
      getTimeChunksGo N cs pad fuel start = some l →
      coresTile N start l ∧
        ∀ c ∈ l, c.padding_left ≤ c.start ∧ c.«end» + c.padding_right ≤ N := by
  intro fuel
  induction fuel with
  | zero =>
    intro start l hle h
    simp only [getTimeChunksGo] at h
    split at h
    · exact absurd h (by simp)
    · cases h
      refine ⟨by simp [coresTile]; omega, by simp⟩
  | succ fuel ih =>
    intro start l hle h
    simp only [getTimeChunksGo] at h
    split at h
    case isTrue hlt =>
      set e := if start + cs > N then N else start + cs with he
      have heN : e ≤ N := by rw [he]; split <;> omega
      have hse : start < e := by rw [he]; split <;> omega
      cases hgo : getTimeChunksGo N cs pad fuel e with
      | none => rw [hgo] at h; exact absurd h (by simp)
      | some rest =>
        rw [hgo] at h
        cases h
        obtain ⟨htile, hpad⟩ := ih e rest heN hgo
        refine ⟨⟨rfl, hse, htile⟩, ?_⟩
        intro c hc
        rcases List.mem_cons.mp hc with hc | hc
        · subst hc
          constructor
          · exact Nat.min_le_right _ _
          · simp only []
            have : min pad (N - e) ≤ N - e := Nat.min_le_right _ _
            omega
        · exact hpad c hc
    case isFalse hge =>
      cases h
      refine ⟨by simp [coresTile]; omega, by simp⟩

theorem getTimeChunksGo_exists (N cs pad : Nat) (hcs : 1 ≤ cs) :
    ∀ (fuel start : Nat), N - start < fuel →
      ∃ l, getTimeChunksGo N cs pad fuel start = some l := by
  intro fuel
  induction fuel with
  | zero => intro start h; omega
  | succ fuel ih =>
    intro start h
    by_cases hlt : start < N
    · simp only [getTimeChunksGo, if_pos hlt]
      set e := if start + cs > N then N else start + cs with he
      have : N - e < fuel := by rw [he]; split <;> omega
      obtain ⟨rest, hrest⟩ := ih e this
      exact ⟨_, by rw [hrest]⟩
    · exact ⟨[], by simp [getTimeChunksGo, hlt]⟩

/-- C4 (amended): for any total sample count `N`, any padding, and any
chunk size of at least one sample, `get_time_chunks` returns an ordered
sequence of chunks whose core regions are non-overlapping, gap-free and
exactly tile `[0, N)`, and whose paddings are clipped so that
`padding_left ≤ start` and `end + padding_right ≤ N` for every chunk.
(The amendment restricts the chunk size to be positive: with
`chunk_size = 0` and `N > 0` the source loop never terminates, see the
counterexample.) -/
theorem c4_time_chunks_tile (N cs pad : Nat) (hcs : 1 ≤ cs) :
    ∃ l, get_time_chunks N cs pad = some l ∧ coresTile N 0 l ∧
      ∀ c ∈ l, c.padding_left ≤ c.start ∧ c.«end» + c.padding_right ≤ N := by
  obtain ⟨l, hl⟩ := getTimeChunksGo_exists N cs pad hcs (N + 1) 0 (by omega)
  obtain ⟨h1, h2⟩ := getTimeChunksGo_sound N cs pad hcs (N + 1) 0 l (by omega) hl
  exact ⟨l, hl, h1, h2⟩

/-- Witness for C4's amended theorem at `N = 5`, chunk size `2`,
padding `1`. -/
theorem c4_time_chunks_tile_witness :
    1 ≤ 2 ∧ ∃ l, get_time_chunks 5 2 1 = some l ∧ coresTile 5 0 l ∧
      ∀ c ∈ l, c.padding_left ≤ c.start ∧ c.«end» + c.padding_right ≤ 5 :=
  ⟨by decide, c4_time_chunks_tile 5 2 1 (by decide)⟩

/-! ## The merge-application phase of `pairwise_merge_step` (lines 42-53)

Events are `(time, label)` pairs; `merges` is the dict built by the
candidate scan, keyed by source unit id, embedded as an association
list queried through `List.lookup`.  The loop
`for unit_id in unit_ids[::-1]` processes unit ids in reverse
(descending) order; for a pending record it adds the offset to the
times of all events labelled `unit_id1` and relabels them `unit_id2`.
The only check in the loop body is `assert unit_id == unit_id1`,
embedded as the `none` branch of `applyMergeStep`. -/

structure Event where
  time : Int
  label : Nat
deriving DecidableEq

structure MergeRec where
  unit_id1 : Nat
  unit_id2 : Nat
  offset : Int
deriving DecidableEq

def applyMergeStep (merges : List (Nat × MergeRec)) (uid : Nat) (evs : List Event) :
    Option (List Event) :=
  match List.lookup uid merges with
  | none => some evs
  | some mm =>
    if mm.unit_id1 = uid then
      some (evs.map (fun e =>
        if e.label = mm.unit_id1 then ⟨e.time + mm.offset, mm.unit_id2⟩ else e))
    else none

def applyMergesLoop (merges : List (Nat × MergeRec)) :
    List Nat → List Event → Option (List Event)
  | [], evs => some evs
  | uid :: rest, evs =>
    match applyMergeStep merges uid evs with
    | none => none
    | some evs2 => applyMergesLoop merges rest evs2

def pairwise_apply_merges (merges : List (Nat × MergeRec)) (unit_ids : List Nat)
    (evs : List Event) : Option (List Event) :=
  applyMergesLoop merges unit_ids.reverse evs

/-- The effect of one loop iteration on a single event. -/
def mergeStep1 (merges : List (Nat × MergeRec)) (uid : Nat) (e : Event) : Event :=
  match List.lookup uid merges with
  | none => e
  | some mm => if e.label = mm.unit_id1 then ⟨e.time + mm.offset, mm.unit_id2⟩ else e

/-- The combined effect of the whole loop on a single event, processing
the given unit ids left to right. -/
def mergeFold (merges : List (Nat × MergeRec)) (uids : List Nat) (e : Event) : Event :=
  uids.foldl (fun e uid => mergeStep1 merges uid e) e

theorem lookup_wf {merges : List (Nat × MergeRec)}
    (hwf : ∀ p ∈ merges, p.2.unit_id1 = p.1) {uid : Nat} {mm : MergeRec}
    (h : List.lookup uid merges = some mm) : mm.unit_id1 = uid := by
  induction merges with
  | nil => simp [List.lookup] at h
  | cons p rest ih =>
    rw [List.lookup_cons] at h
    split at h
    · cases h
      have h1 := hwf p (List.mem_cons_self p rest)
      have h2 : uid = p.1 := by
        rename_i hbeq
        exact beq_iff_eq.mp hbeq
      rw [h1, h2]
    · exact ih (fun q hq => hwf q (List.mem_cons_of_mem p hq)) h

theorem applyMergesLoop_eq_map (merges : List (Nat × MergeRec))
    (hwf : ∀ p ∈ merges, p.2.unit_id1 = p.1) :
    ∀ (uids : List Nat) (evs : List Event),
      applyMergesLoop merges uids evs = some (evs.map (mergeFold merges uids)) := by
  intro uids
  induction uids with
  | nil =>
    intro evs
    simp only [applyMergesLoop]
    congr 1
    refine ((List.map_congr_left ?_).trans (List.map_id evs)).symm
    intro e _
    rfl
  | cons uid rest ih =>
    intro evs
    cases hl : List.lookup uid merges with
    | none =>
      have hstep : applyMergeStep merges uid evs = some evs := by
        simp [applyMergeStep, hl]
      simp only [applyMergesLoop, hstep]
      rw [ih evs]
      congr 1
      apply List.map_congr_left
      intro e _
      simp only [mergeFold, List.foldl_cons, mergeStep1, hl]
    | some mm =>
      have hstep : applyMergeStep merges uid evs
          = some (evs.map (fun e =>
              if e.label = mm.unit_id1 then ⟨e.time + mm.offset, mm.unit_id2⟩ else e)) := by
        simp [applyMergeStep, hl, if_pos (lookup_wf hwf hl)]
      simp only [applyMergesLoop, hstep]
      rw [ih]
      congr 1
      rw [List.map_map]
      apply List.map_congr_left
      intro e _
      simp only [Function.comp, mergeFold, List.foldl_cons, mergeStep1, hl]

/-- A concrete merge map with a transitive chain: source unit `2`
merges into unit `1` with offset `5`, and unit `1` itself merges into
unit `0` with offset `7`. -/
def chainMergesExample : List (Nat × MergeRec) :=
  [(2, ⟨2, 1, 5⟩), (1, ⟨1, 0, 7⟩)]

/-- C3 counterexample: with the merge map `{2 ↦ (2,1,+5), 1 ↦ (1,0,+7)}`
the record for source unit `2` targets unit `1`, which itself has an
unresolved pending merge in the same pass; the application phase does
not raise — it silently applies the record (the event labelled `2` ends
up at label `0` with time `100 + 5 + 7`), contradicting the claim that
this situation is fatal. -/
theorem c3_counterexample :
    (List.lookup 2 chainMergesExample = some ⟨2, 1, 5⟩) ∧
      (List.lookup 1 chainMergesExample).isSome = true ∧
      pairwise_apply_merges chainMergesExample [0, 1, 2] [⟨100, 2⟩]
        = some [⟨112, 0⟩] := by decide

/-- C3 (amended): the merge-application phase performs no
consistency check relating a record's target to other pending merges:
the only fatal check in the loop is the `assert unit_id == unit_id1`,
which holds for every map whose records carry their own key as
`unit_id1` (as the candidate scan always arranges).  Under that sole
condition the phase always succeeds, silently applying records whose
targets have pending merges; descending-order processing then resolves
them transitively. -/
theorem c3_apply_never_fails (merges : List (Nat × MergeRec)) (unit_ids : List Nat)
    (evs : List Event) (hwf : ∀ p ∈ merges, p.2.unit_id1 = p.1) :
    ∃ out, pairwise_apply_merges merges unit_ids evs = some out :=
  ⟨_, applyMergesLoop_eq_map merges hwf unit_ids.reverse evs⟩

/-- Witness for C3's amended theorem on the transitive chain map. -/
theorem c3_apply_never_fails_witness :
    (∀ p ∈ chainMergesExample, p.2.unit_id1 = p.1) ∧
      ∃ out, pairwise_apply_merges chainMergesExample [0, 1, 2] [⟨100, 2⟩] = some out :=
  ⟨by decide, c3_apply_never_fails chainMergesExample [0, 1, 2] [⟨100, 2⟩] (by decide)⟩

theorem mergeStep1_none {merges : List (Nat × MergeRec)} {uid : Nat}
    (hl : List.lookup uid merges = none) (e : Event) :
    mergeStep1 merges uid e = e := by
  unfold mergeStep1
  rw [hl]

theorem mergeStep1_some {merges : List (Nat × MergeRec)} {uid : Nat} {mm : MergeRec}
    (hl : List.lookup uid merges = some mm) (e : Event) :
    mergeStep1 merges uid e
      = if e.label = mm.unit_id1 then ⟨e.time + mm.offset, mm.unit_id2⟩ else e := by
  unfold mergeStep1
  rw [hl]

theorem mergeFold_skip (merges : List (Nat × MergeRec))
    (hwf : ∀ p ∈ merges, p.2.unit_id1 = p.1) :
    ∀ (L : List Nat) (e : Event), List.lookup e.label merges = none →
      mergeFold merges L e = e := by
  intro L
  induction L with
  | nil => intro e _; rfl
  | cons uid rest ih =>
    intro e h
    have hstep : mergeStep1 merges uid e = e := by
      cases hl : List.lookup uid merges with
      | none => exact mergeStep1_none hl e
      | some mm =>
        rw [mergeStep1_some hl e, if_neg]
        intro heq
        rw [lookup_wf hwf hl] at heq
        rw [heq] at h
        rw [h] at hl
        exact absurd hl (by simp)
    simp only [mergeFold, List.foldl_cons, hstep]
    exact ih e h

theorem mergeFold_chain2 (merges : List (Nat × MergeRec))
    (hwf : ∀ p ∈ merges, p.2.unit_id1 = p.1) (A B : Nat) (o2 : Int)
    (hB : List.lookup B merges = some ⟨B, A, o2⟩)
    (hA : List.lookup A merges = none) :
    ∀ (L : List Nat), B ∈ L → ∀ (s : Int),
      mergeFold merges L ⟨s, B⟩ = ⟨s + o2, A⟩ := by
  intro L
  induction L with
  | nil => intro h; exact absurd h (by simp)
  | cons uid rest ih =>
    intro hmem s
    by_cases huB : uid = B
    · subst huB
      have hstep : mergeStep1 merges uid ⟨s, uid⟩ = ⟨s + o2, A⟩ := by
        rw [mergeStep1_some hB ⟨s, uid⟩, if_pos rfl]
      simp only [mergeFold, List.foldl_cons, hstep]
      exact mergeFold_skip merges hwf rest ⟨s + o2, A⟩ hA
    · have hstep : mergeStep1 merges uid ⟨s, B⟩ = ⟨s, B⟩ := by
        cases hl : List.lookup uid merges with
        | none => exact mergeStep1_none hl _
        | some mm =>
          rw [mergeStep1_some hl _, if_neg]
          intro heq
          rw [lookup_wf hwf hl] at heq
          exact huB heq.symm
      simp only [mergeFold, List.foldl_cons, hstep]
      refine ih ?_ s
      rcases List.mem_cons.mp hmem with h | h
      · exact absurd h.symm huB
      · exact h

theorem mergeFold_chain (merges : List (Nat × MergeRec))
    (hwf : ∀ p ∈ merges, p.2.unit_id1 = p.1) (A B C : Nat) (o1 o2 : Int)
    (hC : List.lookup C merges = some ⟨C, B, o1⟩)
    (hB : List.lookup B merges = some ⟨B, A, o2⟩)
    (hA : List.lookup A merges = none) (hBC : B < C) :
    ∀ (L : List Nat), List.Sorted (· > ·) L → C ∈ L → B ∈ L → ∀ (t : Int),
      mergeFold merges L ⟨t, C⟩ = ⟨t + o1 + o2, A⟩ := by
  intro L
  induction L with
  | nil => intro _ h; exact absurd h (by simp)
  | cons uid rest ih =>
    intro hsort hCm hBm t
    obtain ⟨hhead, htail⟩ := List.sorted_cons.mp hsort
    by_cases huC : uid = C
    · subst huC
      have hstep : mergeStep1 merges uid ⟨t, uid⟩ = ⟨t + o1, B⟩ := by
        rw [mergeStep1_some hC ⟨t, uid⟩, if_pos rfl]
      simp only [mergeFold, List.foldl_cons, hstep]
      have hBrest : B ∈ rest := by
        rcases List.mem_cons.mp hBm with h | h
        · omega
        · exact h
      exact mergeFold_chain2 merges hwf A B o2 hB hA rest hBrest (t + o1)
    · have hstep : mergeStep1 merges uid ⟨t, C⟩ = ⟨t, C⟩ := by
        cases hl : List.lookup uid merges with
        | none => exact mergeStep1_none hl _
        | some mm =>
          rw [mergeStep1_some hl _, if_neg]
          intro heq
          rw [lookup_wf hwf hl] at heq
          exact huC heq.symm
      simp only [mergeFold, List.foldl_cons, hstep]
      have hCrest : C ∈ rest := by
        rcases List.mem_cons.mp hCm with h | h
        · exact absurd h.symm huC
        · exact h
      have hBrest : B ∈ rest := by
        rcases List.mem_cons.mp hBm with h | h
        · have := hhead C hCrest
          omega
        · exact h
      exact ih htail hCrest hBrest t

theorem forall2_map_self {α β : Type _} (P : α → β → Prop) (f : α → β)
    (h : ∀ a, P a (f a)) : ∀ l : List α, List.Forall₂ P l (l.map f) := by
  intro l
  induction l with
  | nil => exact List.Forall₂.nil
  | cons a rest ih => exact List.Forall₂.cons (h a) ih

/-- C5: the application phase processes unit ids in descending order
(`unit_ids[::-1]`), so a transitive chain `C → B` (offset `o1`) and
`B → A` (offset `o2`) with `C > B > A` collapses correctly: the phase
succeeds, and in its output every event originally labelled `C` carries
label `A` with its time increased by `o1 + o2`, and every event
originally labelled `B` carries label `A` with its time increased by
`o2`.  The map carries the two chain records for `C` and `B` and none
for `A`, and each record carries its own key (so the loop assert
holds). -/
theorem c5_transitive_merge (merges : List (Nat × MergeRec)) (unit_ids : List Nat)
    (evs : List Event) (A B C : Nat) (o1 o2 : Int)
    (hasc : List.Sorted (· < ·) unit_ids)
    (hCm : C ∈ unit_ids) (hBm : B ∈ unit_ids)
    (hwf : ∀ p ∈ merges, p.2.unit_id1 = p.1)
    (hC : List.lookup C merges = some ⟨C, B, o1⟩)
    (hB : List.lookup B merges = some ⟨B, A, o2⟩)
    (hA : List.lookup A merges = none)
    (hBC : B < C) :
    ∃ out, pairwise_apply_merges merges unit_ids evs = some out ∧
      List.Forall₂ (fun e o =>
        (e.label = C → o = ⟨e.time + o1 + o2, A⟩) ∧
        (e.label = B → o = ⟨e.time + o2, A⟩)) evs out := by
  refine ⟨evs.map (mergeFold merges unit_ids.reverse),
    applyMergesLoop_eq_map merges hwf unit_ids.reverse evs, ?_⟩
  apply forall2_map_self
  intro e
  have hsortrev : List.Sorted (· > ·) unit_ids.reverse := List.pairwise_reverse.mpr hasc
  constructor
  · intro hlab
    cases e with
    | mk t lab =>
      have hlab2 : lab = C := hlab
      rw [hlab2]
      exact mergeFold_chain merges hwf A B C o1 o2 hC hB hA hBC unit_ids.reverse hsortrev
        (List.mem_reverse.mpr hCm) (List.mem_reverse.mpr hBm) t
  · intro hlab
    cases e with
    | mk t lab =>
      have hlab2 : lab = B := hlab
      rw [hlab2]
      exact mergeFold_chain2 merges hwf A B o2 hB hA unit_ids.reverse
        (List.mem_reverse.mpr hBm) t

/-- Witness for C5 on the chain map `{2 ↦ (2,1,+5), 1 ↦ (1,0,+7)}` with
unit ids `0 < 1 < 2` and events labelled `2`, `1` and `0`. -/
theorem c5_transitive_merge_witness :
    List.Sorted (· < ·) [0, 1, 2] ∧ 2 ∈ [0, 1, 2] ∧ 1 ∈ [0, 1, 2] ∧
      (∀ p ∈ chainMergesExample, p.2.unit_id1 = p.1) ∧
      List.lookup 2 chainMergesExample = some ⟨2, 1, 5⟩ ∧
      List.lookup 1 chainMergesExample = some ⟨1, 0, 7⟩ ∧
      List.lookup 0 chainMergesExample = none ∧ 1 < 2 ∧
      ∃ out, pairwise_apply_merges chainMergesExample [0, 1, 2]
          [⟨100, 2⟩, ⟨50, 1⟩, ⟨30, 0⟩] = some out ∧
        List.Forall₂ (fun e o : Event =>
          (e.label = 2 → o = ⟨e.time + 5 + 7, 0⟩) ∧
          (e.label = 1 → o = ⟨e.time + 7, 0⟩)) [⟨100, 2⟩, ⟨50, 1⟩, ⟨30, 0⟩] out :=
  ⟨by decide, by decide, by decide, by decide, by decide, by decide, by decide, by decide,
    c5_transitive_merge chainMergesExample [0, 1, 2] [⟨100, 2⟩, ⟨50, 1⟩, ⟨30, 0⟩]
      0 1 2 5 7 (by decide) (by decide) (by decide) (by decide) (by decide) (by decide)
      (by decide) (by decide)⟩

/-! ## The candidate scan of `pairwise_merge_step` (lines 16-41)

Templates are `K × T × M` stacks of rationals (time rows, channel
columns).  Lines 17-21 rectify them by the detection sign; lines 24-26
compute, per unit, the dominant channel (`np.argmax` of the per-channel
maxima — first maximum wins), the per-channel peak values and the
per-channel peak time indices (again first maximum).  The nested loops
of lines 27-41 visit `i1` ascending and `i2` descending from `i1 - 1`
to `0`, and on a passing pair assign
`merges[unit_ids[i1]] = {unit_id1, unit_id2, offset}` — embedded as
prepending to the association list, so that `List.lookup` sees the most
recent assignment, exactly like the Python dict.  The statistical
`test_merge` call (which involves the external PCA and isosplit
collaborators) is abstracted as the boolean parameter `test`. -/

def rectifyTemplate (detect_sign : Int) (templ : List (List ℚ)) : List (List ℚ) :=
  if detect_sign < 0 then templ.map (fun row => row.map (fun x => -x))
  else if detect_sign > 0 then templ
  else templ.map (fun row => row.map (fun x => |x|))

def listMax : List ℚ → ℚ
  | [] => 0
  | x :: rest => rest.foldl max x

def argmaxAux : List ℚ → ℚ → Nat → Nat → Nat
  | [], _, _, best => best
  | x :: rest, bv, i, best =>
    if bv < x then argmaxAux rest x (i + 1) i else argmaxAux rest bv (i + 1) best

/-- `np.argmax`: index of the first occurrence of the maximum (`0` on
an empty list, matching the degenerate-array convention only formally —
the scan never consults it for well-formed templates). -/
def listArgmax : List ℚ → Nat
  | [] => 0
  | x :: rest => argmaxAux rest x 1 0

def unitTemplate (detect_sign : Int) (templates : List (List (List ℚ))) (i : Nat) :
    List (List ℚ) :=
  rectifyTemplate detect_sign (templates.getD i [])

/-- The number of channels of a (rectangular) `T × M` template. -/
def numChannels (A : List (List ℚ)) : Nat := (A.headD []).length

/-- Column `m` of a template: the channel's time series. -/
def columnOf (A : List (List ℚ)) (m : Nat) : List ℚ := A.map (fun row => row.getD m 0)

/-- `np.max(A[i], axis=0)`: per-channel maximum over time. -/
def peak_values_on_channels (A : List (List ℚ)) : List ℚ :=
  (List.range (numChannels A)).map (fun m => listMax (columnOf A m))

/-- `np.argmax(A[i], axis=0)`: per-channel index of the (first) peak
over time. -/
def peak_time_indices_on_channels (A : List (List ℚ)) : List Nat :=
  (List.range (numChannels A)).map (fun m => listArgmax (columnOf A m))

/-- `np.argmax(np.max(A[i], axis=0))`: the unit's dominant channel. -/
def peak_channel_index (A : List (List ℚ)) : Nat :=
  listArgmax (peak_values_on_channels A)

/-- `offset1` (line 29): difference of the two units' peak times on
unit `i1`'s dominant channel. -/
def pairOffset1 (ds : Int) (templates : List (List (List ℚ))) (i1 i2 : Nat) : Int :=
  ((peak_time_indices_on_channels (unitTemplate ds templates i2)).getD
      (peak_channel_index (unitTemplate ds templates i1)) 0 : Int)
    - ((peak_time_indices_on_channels (unitTemplate ds templates i1)).getD
      (peak_channel_index (unitTemplate ds templates i1)) 0 : Int)

/-- `offset2` (line 30): difference of the two units' peak times on
unit `i2`'s dominant channel. -/
def pairOffset2 (ds : Int) (templates : List (List (List ℚ))) (i1 i2 : Nat) : Int :=
  ((peak_time_indices_on_channels (unitTemplate ds templates i2)).getD
      (peak_channel_index (unitTemplate ds templates i2)) 0 : Int)
    - ((peak_time_indices_on_channels (unitTemplate ds templates i1)).getD
      (peak_channel_index (unitTemplate ds templates i2)) 0 : Int)

/-- The three gating conditions of lines 31-33: offsets agree within 4
samples and the symmetric cross-amplitude criterion (each unit's
amplitude on the other's dominant channel exceeds `0.5` times the
other's peak amplitude on that channel). -/
def mergeGate (ds : Int) (templates : List (List (List ℚ))) (i1 i2 : Nat) : Bool :=
  decide (|pairOffset1 ds templates i1 i2 - pairOffset2 ds templates i1 i2| ≤ 4) &&
  decide ((peak_values_on_channels (unitTemplate ds templates i1)).getD
        (peak_channel_index (unitTemplate ds templates i2)) 0
      > (1 / 2 : ℚ) * (peak_values_on_channels (unitTemplate ds templates i2)).getD
        (peak_channel_index (unitTemplate ds templates i2)) 0) &&
  decide ((peak_values_on_channels (unitTemplate ds templates i2)).getD
        (peak_channel_index (unitTemplate ds templates i1)) 0
      > (1 / 2 : ℚ) * (peak_values_on_channels (unitTemplate ds templates i1)).getD
        (peak_channel_index (unitTemplate ds templates i1)) 0)

/-- The inner loop `for i2 in range(i1 - 1, -1, -1)`: invoked with the
counter equal to `i1`, it processes `i2 = counter - 1` first and counts
down to `0`, prepending a record keyed by `unit_ids[i1]` for every pair
that passes the gate and the merge test. -/
def scanInner (ds : Int) (templates : List (List (List ℚ))) (test : Nat → Nat → Bool)
    (unit_ids : List Nat) (i1 : Nat) : Nat → List (Nat × MergeRec) → List (Nat × MergeRec)
  | 0, merges => merges
  | n + 1, merges =>
    scanInner ds templates test unit_ids i1 n
      (if mergeGate ds templates i1 n && test i1 n then
        (unit_ids.getD i1 0,
          ⟨unit_ids.getD i1 0, unit_ids.getD n 0, pairOffset1 ds templates i1 n⟩) :: merges
      else merges)

/-- The outer loop `for i1 in range(K)`, processing `i1` ascending. -/
def scanOuter (ds : Int) (templates : List (List (List ℚ))) (test : Nat → Nat → Bool)
    (unit_ids : List Nat) : Nat → List (Nat × MergeRec) → List (Nat × MergeRec)
  | 0, merges => merges
  | n + 1, merges =>
    scanInner ds templates test unit_ids n n (scanOuter ds templates test unit_ids n merges)

/-- The candidate-scan phase of `pairwise_merge_step` (lines 23-41),
producing the `merges` dict. -/
def pairwise_candidate_scan (ds : Int) (templates : List (List (List ℚ)))
    (test : Nat → Nat → Bool) (unit_ids : List Nat) (K : Nat) : List (Nat × MergeRec) :=
  scanOuter ds templates test unit_ids K []

theorem lookup_cons_ne {β : Type _} {k key : Nat} (h : k ≠ key) (v : β)
    (ms : List (Nat × β)) : List.lookup k ((key, v) :: ms) = List.lookup k ms := by
  rw [List.lookup_cons]
  split
  · rename_i hbeq; exact absurd (beq_iff_eq.mp hbeq) h
  · rfl

theorem lookup_cons_self {β : Type _} (key : Nat) (v : β) (ms : List (Nat × β)) :
    List.lookup key ((key, v) :: ms) = some v := by
  rw [List.lookup_cons]
  split
  · rfl
  · rename_i hbeq; simp at hbeq

theorem scanInner_lookup_skip (ds : Int) (templates : List (List (List ℚ)))
    (test : Nat → Nat → Bool) (unit_ids : List Nat) (i1 : Nat) (k : Nat)
    (hk : k ≠ unit_ids.getD i1 0) :
    ∀ (n : Nat) (ms : List (Nat × MergeRec)),
      List.lookup k (scanInner ds templates test unit_ids i1 n ms) = List.lookup k ms := by
  intro n
  induction n with
  | zero => intro ms; rfl
  | succ n ih =>
    intro ms
    simp only [scanInner]
    split
    · rw [ih, lookup_cons_ne hk]
    · exact ih ms

theorem scanInner_lookup (ds : Int) (templates : List (List (List ℚ)))
    (test : Nat → Nat → Bool) (unit_ids : List Nat) (i1 : Nat) :
    ∀ (n : Nat) (ms : List (Nat × MergeRec)),
      List.lookup (unit_ids.getD i1 0) (scanInner ds templates test unit_ids i1 n ms)
        = Option.or
            ((((List.range n).filter
                (fun i2 => mergeGate ds templates i1 i2 && test i1 i2)).head?).map
              (fun i2 => (⟨unit_ids.getD i1 0, unit_ids.getD i2 0,
                pairOffset1 ds templates i1 i2⟩ : MergeRec)))
            (List.lookup (unit_ids.getD i1 0) ms) := by
  intro n
  induction n with
  | zero => intro ms; rfl
  | succ n ih =>
    intro ms
    simp only [scanInner]
    rw [ih, List.range_succ, List.filter_append]
    by_cases hg : (mergeGate ds templates i1 n && test i1 n) = true
    · rw [if_pos hg]
      cases hfil : (List.range n).filter
          (fun i2 => mergeGate ds templates i1 i2 && test i1 i2) with
      | nil => rw [lookup_cons_self]; simp [List.filter_cons, hg, Option.or]
      | cons j js => rfl
    · rw [if_neg hg]
      cases hfil : (List.range n).filter
          (fun i2 => mergeGate ds templates i1 i2 && test i1 i2) with
      | nil => simp [List.filter_cons, hg, Option.or]
      | cons j js => rfl

theorem scanOuter_lookup_skip (ds : Int) (templates : List (List (List ℚ)))
    (test : Nat → Nat → Bool) (unit_ids : List Nat) (k : Nat) :
    ∀ (K : Nat) (ms : List (Nat × MergeRec)), (∀ j, j < K → unit_ids.getD j 0 ≠ k) →
      List.lookup k (scanOuter ds templates test unit_ids K ms) = List.lookup k ms := by
  intro K
  induction K with
  | zero => intro ms _; rfl
  | succ n ih =>
    intro ms h
    simp only [scanOuter]
    rw [scanInner_lookup_skip ds templates test unit_ids n k
      (fun heq => h n (by omega) heq.symm)]
    exact ih ms (fun j hj => h j (by omega))

/-- C1 (amended): the candidate scan keeps at most one merge record per
source unit id (the dict is keyed by `unit_ids[i1]`), but a later
passing candidate for the same source DOES overwrite an already
recorded one: the record retained for source `unit_ids[i1]` corresponds
to the last passing pair in the scan order — with the inner index
descending, that is the passing candidate with the smallest `i2` (the
head of the filtered ascending range), not the first one found. -/
theorem c1_retained_record_is_last_found (ds : Int) (templates : List (List (List ℚ)))
    (test : Nat → Nat → Bool) (unit_ids : List Nat) (K i1 : Nat) (hi : i1 < K)
    (hinj : ∀ j, j < K → j ≠ i1 → unit_ids.getD j 0 ≠ unit_ids.getD i1 0) :
    List.lookup (unit_ids.getD i1 0) (pairwise_candidate_scan ds templates test unit_ids K)
      = (((List.range i1).filter
          (fun i2 => mergeGate ds templates i1 i2 && test i1 i2)).head?).map
          (fun i2 => (⟨unit_ids.getD i1 0, unit_ids.getD i2 0,
            pairOffset1 ds templates i1 i2⟩ : MergeRec)) := by
  suffices h : ∀ (n : Nat), i1 < n →
      (∀ j, j < n → j ≠ i1 → unit_ids.getD j 0 ≠ unit_ids.getD i1 0) →
      List.lookup (unit_ids.getD i1 0) (scanOuter ds templates test unit_ids n [])
        = (((List.range i1).filter
            (fun i2 => mergeGate ds templates i1 i2 && test i1 i2)).head?).map
            (fun i2 => (⟨unit_ids.getD i1 0, unit_ids.getD i2 0,
              pairOffset1 ds templates i1 i2⟩ : MergeRec)) by
    exact h K hi hinj
  intro n
  induction n with
  | zero => intro h; omega
  | succ n ih =>
    intro hi1 hinj2
    simp only [scanOuter]
    by_cases hin : i1 = n
    · subst hin
      rw [scanInner_lookup]
      rw [scanOuter_lookup_skip ds templates test unit_ids (unit_ids.getD i1 0) i1 []
        (fun j hj heq => hinj2 j (by omega) (by omega) heq)]
      cases ((List.range i1).filter
          (fun i2 => mergeGate ds templates i1 i2 && test i1 i2)).head? <;> rfl
    · have hne : unit_ids.getD i1 0 ≠ unit_ids.getD n 0 :=
        fun heq => hinj2 n (by omega) (fun h2 => hin h2.symm) heq.symm
      rw [scanInner_lookup_skip ds templates test unit_ids n _ hne]
      exact ih (by omega) (fun j hj hji => hinj2 j (by omega) hji)



/-- Three identical single-sample, single-channel templates: every pair
passes the gate (the offset estimates agree trivially, and each peak
value `1` exceeds half of the other unit's peak). -/
def tmplUniform : List (List (List ℚ)) := [[[1]], [[1]], [[1]]]

/-- A merge test that accepts every pair. -/
def testAlways : Nat → Nat → Bool := fun _ _ => true

theorem mergeGate_uniform (i1 i2 : Nat) (h1 : i1 < 3) (h2 : i2 < 3) :
    mergeGate 1 tmplUniform i1 i2 = true := by
  have ht : ∀ j, j < 3 → unitTemplate 1 tmplUniform j = [[1]] := by
    intro j hj
    interval_cases j <;> rfl
  simp only [mergeGate, Bool.and_eq_true, decide_eq_true_eq, pairOffset1, pairOffset2,
    ht i1 h1, ht i2 h2]
  refine ⟨⟨?_, ?_⟩, ?_⟩
  · show |((0 : Int) - 0) - ((0 : Int) - 0)| ≤ 4
    norm_num
  · show (1 : ℚ) > 1 / 2 * 1
    norm_num
  · show (1 : ℚ) > 1 / 2 * 1
    norm_num

/-- C1 counterexample: with three identical templates, unit ids
`[1, 2, 3]` and a merge test that accepts everything, both candidate
pairs for source unit `3` (inner indices `1` then `0`) pass, and the
retained record for source `3` targets unit `1` — the candidate found
LAST in the pair-scan order.  First-found-wins would have retained the
record `⟨3, 2, 0⟩` produced at inner index `1`, so a later passing
candidate does overwrite an already recorded merge. -/
theorem c1_counterexample :
    (mergeGate 1 tmplUniform 2 1 && testAlways 2 1) = true ∧
      (mergeGate 1 tmplUniform 2 0 && testAlways 2 0) = true ∧
      List.lookup 3 (pairwise_candidate_scan 1 tmplUniform testAlways [1, 2, 3] 3)
        = some ⟨3, 1, 0⟩ := by
  have hg : ∀ i1 i2, i1 < 3 → i2 < 3 →
      (mergeGate 1 tmplUniform i1 i2 && testAlways i1 i2) = true := by
    intro i1 i2 h1 h2
    rw [mergeGate_uniform i1 i2 h1 h2]
    rfl
  refine ⟨hg 2 1 (by omega) (by omega), hg 2 0 (by omega) (by omega), ?_⟩
  show List.lookup 3 (scanInner 1 tmplUniform testAlways [1, 2, 3] 2 2
      (scanInner 1 tmplUniform testAlways [1, 2, 3] 1 1
        (scanInner 1 tmplUniform testAlways [1, 2, 3] 0 0 []))) = some ⟨3, 1, 0⟩
  rw [show scanInner 1 tmplUniform testAlways [1, 2, 3] 0 0 [] = ([] : List (Nat × MergeRec))
    from rfl]
  rw [show scanInner 1 tmplUniform testAlways [1, 2, 3] 1 1 []
      = scanInner 1 tmplUniform testAlways [1, 2, 3] 1 0
        (if (mergeGate 1 tmplUniform 1 0 && testAlways 1 0) = true
         then [((2 : Nat), (⟨2, 1, pairOffset1 1 tmplUniform 1 0⟩ : MergeRec))] else [])
    from rfl]
  rw [if_pos (hg 1 0 (by omega) (by omega))]
  rw [show scanInner 1 tmplUniform testAlways [1, 2, 3] 1 0
        [((2 : Nat), (⟨2, 1, pairOffset1 1 tmplUniform 1 0⟩ : MergeRec))]
      = [((2 : Nat), (⟨2, 1, pairOffset1 1 tmplUniform 1 0⟩ : MergeRec))] from rfl]
  rw [show scanInner 1 tmplUniform testAlways [1, 2, 3] 2 2
        [((2 : Nat), (⟨2, 1, pairOffset1 1 tmplUniform 1 0⟩ : MergeRec))]
      = scanInner 1 tmplUniform testAlways [1, 2, 3] 2 1
        (if (mergeGate 1 tmplUniform 2 1 && testAlways 2 1) = true
         then ((3 : Nat), (⟨3, 2, pairOffset1 1 tmplUniform 2 1⟩ : MergeRec)) ::
           [((2 : Nat), (⟨2, 1, pairOffset1 1 tmplUniform 1 0⟩ : MergeRec))]
         else [((2 : Nat), (⟨2, 1, pairOffset1 1 tmplUniform 1 0⟩ : MergeRec))]) from rfl]
  rw [if_pos (hg 2 1 (by omega) (by omega))]
  rw [show scanInner 1 tmplUniform testAlways [1, 2, 3] 2 1
        (((3 : Nat), (⟨3, 2, pairOffset1 1 tmplUniform 2 1⟩ : MergeRec)) ::
          [((2 : Nat), (⟨2, 1, pairOffset1 1 tmplUniform 1 0⟩ : MergeRec))])
      = scanInner 1 tmplUniform testAlways [1, 2, 3] 2 0
        (if (mergeGate 1 tmplUniform 2 0 && testAlways 2 0) = true
         then ((3 : Nat), (⟨3, 1, pairOffset1 1 tmplUniform 2 0⟩ : MergeRec)) ::
           ((3 : Nat), (⟨3, 2, pairOffset1 1 tmplUniform 2 1⟩ : MergeRec)) ::
           [((2 : Nat), (⟨2, 1, pairOffset1 1 tmplUniform 1 0⟩ : MergeRec))]
         else ((3 : Nat), (⟨3, 2, pairOffset1 1 tmplUniform 2 1⟩ : MergeRec)) ::
           [((2 : Nat), (⟨2, 1, pairOffset1 1 tmplUniform 1 0⟩ : MergeRec))]) from rfl]
  rw [if_pos (hg 2 0 (by omega) (by omega))]
  rfl

/-- Witness for C1's amended theorem on the uniform-template scan. -/
theorem c1_retained_record_is_last_found_witness :
    2 < 3 ∧ (∀ j, j < 3 → j ≠ 2 → List.getD [1, 2, 3] j 0 ≠ List.getD [1, 2, 3] 2 0) ∧
      List.lookup (List.getD [1, 2, 3] 2 0)
          (pairwise_candidate_scan 1 tmplUniform testAlways [1, 2, 3] 3)
        = (((List.range 2).filter
            (fun i2 => mergeGate 1 tmplUniform 2 i2 && testAlways 2 i2)).head?).map
            (fun i2 => (⟨List.getD [1, 2, 3] 2 0, List.getD [1, 2, 3] i2 0,
              pairOffset1 1 tmplUniform 2 i2⟩ : MergeRec)) :=
  ⟨by decide, by decide,
    c1_retained_record_is_last_found 1 tmplUniform testAlways [1, 2, 3] 3 2
      (by decide) (by decide)⟩

/-- The pairs on which the scan reaches the `test_merge` call: the
three gating `if`s of lines 31-33 are passed (the merge test sits
inside them, so it is invoked exactly on these pairs, before its result
is known).  Same loop structure as the scan itself. -/
def invokedInner (ds : Int) (templates : List (List (List ℚ))) (i1 : Nat) :
    Nat → List (Nat × Nat) → List (Nat × Nat)
  | 0, acc => acc
  | n + 1, acc =>
    invokedInner ds templates i1 n
      (if mergeGate ds templates i1 n then acc ++ [(i1, n)] else acc)

def invokedOuter (ds : Int) (templates : List (List (List ℚ))) :
    Nat → List (Nat × Nat) → List (Nat × Nat)
  | 0, acc => acc
  | n + 1, acc => invokedInner ds templates n n (invokedOuter ds templates n acc)

def merge_test_invocations (ds : Int) (templates : List (List (List ℚ))) (K : Nat) :
    List (Nat × Nat) :=
  invokedOuter ds templates K []

theorem invokedInner_mem (ds : Int) (templates : List (List (List ℚ))) (i1 : Nat) :
    ∀ (n : Nat) (acc : List (Nat × Nat)) (p : Nat × Nat),
      p ∈ invokedInner ds templates i1 n acc ↔
        p ∈ acc ∨ ∃ i2, i2 < n ∧ mergeGate ds templates i1 i2 = true ∧ p = (i1, i2) := by
  intro n
  induction n with
  | zero => intro acc p; simp [invokedInner]
  | succ n ih =>
    intro acc p
    simp only [invokedInner]
    by_cases hg : mergeGate ds templates i1 n = true
    · rw [if_pos hg, ih]
      simp only [List.mem_append, List.mem_singleton]
      constructor
      · rintro ((h | h) | ⟨i2, hi2, hgi, hp⟩)
        · exact Or.inl h
        · exact Or.inr ⟨n, by omega, hg, h⟩
        · exact Or.inr ⟨i2, by omega, hgi, hp⟩
      · rintro (h | ⟨i2, hi2, hgi, hp⟩)
        · exact Or.inl (Or.inl h)
        · by_cases hin : i2 = n
          · exact Or.inl (Or.inr (by rw [hp, hin]))
          · exact Or.inr ⟨i2, by omega, hgi, hp⟩
    · rw [if_neg hg, ih]
      constructor
      · rintro (h | ⟨i2, hi2, hgi, hp⟩)
        · exact Or.inl h
        · exact Or.inr ⟨i2, by omega, hgi, hp⟩
      · rintro (h | ⟨i2, hi2, hgi, hp⟩)
        · exact Or.inl h
        · refine Or.inr ⟨i2, ?_, hgi, hp⟩
          rcases Nat.lt_succ_iff_lt_or_eq.mp hi2 with h2 | h2
          · exact h2
          · subst h2; exact absurd hgi hg

theorem invokedOuter_mem (ds : Int) (templates : List (List (List ℚ))) :
    ∀ (K : Nat) (acc : List (Nat × Nat)) (p : Nat × Nat),
      p ∈ invokedOuter ds templates K acc ↔
        p ∈ acc ∨ ∃ i1 i2, i1 < K ∧ i2 < i1 ∧ mergeGate ds templates i1 i2 = true ∧
          p = (i1, i2) := by
  intro K
  induction K with
  | zero => intro acc p; simp [invokedOuter]
  | succ n ih =>
    intro acc p
    simp only [invokedOuter]
    rw [invokedInner_mem, ih]
    constructor
    · rintro ((h | ⟨i1, i2, h1, h2, hg, hp⟩) | ⟨i2, hi2, hg, hp⟩)
      · exact Or.inl h
      · exact Or.inr ⟨i1, i2, by omega, h2, hg, hp⟩
      · exact Or.inr ⟨n, i2, by omega, hi2, hg, hp⟩
    · rintro (h | ⟨i1, i2, h1, h2, hg, hp⟩)
      · exact Or.inl (Or.inl h)
      · by_cases hin : i1 = n
        · subst hin
          exact Or.inr ⟨i2, h2, hg, hp⟩
        · exact Or.inl (Or.inr ⟨i1, i2, by omega, h2, hg, hp⟩)

/-- C8: a pair `(i1, i2)` with `i2 < i1` reaches the merge test if and
only if (a) the two relative-offset estimates computed on each unit's
own dominant channel agree within 4 samples, and (b) each unit's
rectified amplitude on the other unit's dominant channel exceeds half
of the other unit's own peak amplitude on that (its own dominant)
channel, symmetrically for both units. -/
theorem c8_merge_test_invoked_iff (ds : Int) (templates : List (List (List ℚ)))
    (K i1 i2 : Nat) :
    (i1, i2) ∈ merge_test_invocations ds templates K ↔
      (i2 < i1 ∧ i1 < K ∧
        |pairOffset1 ds templates i1 i2 - pairOffset2 ds templates i1 i2| ≤ 4 ∧
        (peak_values_on_channels (unitTemplate ds templates i1)).getD
            (peak_channel_index (unitTemplate ds templates i2)) 0
          > (1 / 2 : ℚ) * (peak_values_on_channels (unitTemplate ds templates i2)).getD
            (peak_channel_index (unitTemplate ds templates i2)) 0 ∧
        (peak_values_on_channels (unitTemplate ds templates i2)).getD
            (peak_channel_index (unitTemplate ds templates i1)) 0
          > (1 / 2 : ℚ) * (peak_values_on_channels (unitTemplate ds templates i1)).getD
            (peak_channel_index (unitTemplate ds templates i1)) 0) := by
  unfold merge_test_invocations
  rw [invokedOuter_mem]
  simp only [List.not_mem_nil, false_or]
  constructor
  · rintro ⟨j1, j2, h1, h2, hg, hp⟩
    have e1 : i1 = j1 := (Prod.mk.injEq .. ▸ hp).1
    have e2 : i2 = j2 := (Prod.mk.injEq .. ▸ hp).2
    subst e1
    subst e2
    simp only [mergeGate, Bool.and_eq_true, decide_eq_true_eq] at hg
    exact ⟨h2, h1, hg.1.1, hg.1.2, hg.2⟩
  · rintro ⟨h2, h1, hP1, hP2, hP3⟩
    refine ⟨i1, i2, h1, h2, ?_, rfl⟩
    simp only [mergeGate, Bool.and_eq_true, decide_eq_true_eq]
    exact ⟨⟨hP1, hP2⟩, hP3⟩

/-! ## `test_merge` (pairwise_merge_step.py, lines 90-102)

The two snippet batches are flattened (`reshape((L, T * M))`, row-major
— list join), concatenated along the sample axis, projected onto 12
principal components, clustered with `isosplit6`, and the result is
`np.max(labels0) == 1`.  The clustering primitive is the out-of-scope
external collaborator `cluster` (1-based contiguous labels per the
spec's §6). -/

def flattenSnippet (s : List (List ℚ)) : List ℚ := s.flatten

/-- Modelled from the spec: `compute_pca_features` lives in
`mountainsort5/core/compute_pca_features.py`, which is not among the
sources.  §6 gives its contract (`reduce(vectors, num_components) →
projected vectors`) and §7 its failure mode, NumericDegeneracy: "too
few samples for the requested component count in dimensionality
reduction".  The projection itself stays abstract (`proj`); the model
fails (`none`) precisely when there are fewer sample vectors than
requested components. -/
def compute_pca_features (proj : List (List ℚ) → Nat → List (List ℚ))
    (X : List (List ℚ)) (npca : Nat) : Option (List (List ℚ)) :=
  if X.length < npca then none else some (proj X npca)

def listMaxNat : List Nat → Nat
  | [] => 0
  | x :: rest => rest.foldl max x

/-- `test_merge`: the source calls the reduction and the clustering
directly, with no guard on the batch sizes and no exception handler, so
a reduction failure propagates (`none`). -/
def test_merge (proj : List (List ℚ) → Nat → List (List ℚ))
    (cluster : List (List ℚ) → List Nat)
    (snippets1 snippets2 : List (List (List ℚ))) : Option Bool :=
  match compute_pca_features proj
      ((snippets1.map flattenSnippet) ++ (snippets2.map flattenSnippet)) 12 with
  | none => none
  | some features => some (decide (listMaxNat (cluster features) = 1))

/-- C7: `test_merge` does NOT signal "not mergeable" when the batches
have too few total samples for the 12 principal components — it has no
guard, so the dimensionality-reduction failure propagates (first
conjunct: two single-sample batches, 2 < 12 total samples, yield `none`
rather than `some false`).  The second conjunct records the actual
unguarded behaviour on every input: the reduction failure passes
through, and otherwise the result is exactly "the clustering of the
12-component projection of the concatenated flattened batches has
maximum label 1". -/
theorem c7_test_merge_unguarded (proj : List (List ℚ) → Nat → List (List ℚ))
    (cluster : List (List ℚ) → List Nat) (s1 s2 : List (List (List ℚ))) :
    test_merge proj cluster [[[1]]] [[[1]]] = none ∧
      test_merge proj cluster s1 s2
        = (if (s1.map flattenSnippet ++ s2.map flattenSnippet).length < 12 then none
           else some (decide (listMaxNat
             (cluster (proj (s1.map flattenSnippet ++ s2.map flattenSnippet) 12)) = 1))) := by
  constructor
  · rfl
  · unfold test_merge compute_pca_features
    by_cases h : (s1.map flattenSnippet ++ s2.map flattenSnippet).length < 12
    · rw [if_pos h, if_pos h]
    · rw [if_neg h, if_neg h]

/-! ## Per-chunk tail of the orchestrator (sorting_scheme2.py, lines 146-163)

After classification and offset correction the chunk's events are
re-sorted, deduplicated with tolerance `time_radius` (line 154), events
outside `[padding_left, total_size - padding_right)` are discarded
(line 157), and the survivors are translated to the global axis by
`+ chunk.start - chunk.padding_left` (line 162); per-chunk results are
appended in chunk order and concatenated (lines 113-167). -/

/-- Modelled from the spec: `remove_duplicate_events` is imported from
`mountainsort5.core.pairwise_merge_step` (sorting_scheme2.py, line 12)
but is absent from the sources.  Per §2 (DuplicateResolver "collapses
near-duplicate events — events of the same label within a time
tolerance") and §4.1 (greedy anchor scan per label, caller partitions
by label), the model walks the time-ascending events once keeping a
per-label anchor time: an event within `tol` of its label's current
anchor (inclusive) is dropped; any other event is kept and becomes its
label's new anchor. -/
def removeDupGo (tol : Int) (anch : List (Nat × Int)) : List Event → List Event
  | [] => []
  | e :: rest =>
    match List.lookup e.label anch with
    | some a =>
      if e.time ≤ a + tol then removeDupGo tol anch rest
      else e :: removeDupGo tol ((e.label, e.time) :: anch) rest
    | none => e :: removeDupGo tol ((e.label, e.time) :: anch) rest

def remove_duplicate_events (tol : Int) (evs : List Event) : List Event :=
  removeDupGo tol [] evs

def chunk_output (time_radius : Int) (c : TimeChunk) (evs : List Event) : List Event :=
  ((remove_duplicate_events time_radius evs).filter (fun e =>
      decide ((c.padding_left : Int) ≤ e.time) &&
      decide (e.time < (c.total_size : Int) - (c.padding_right : Int)))).map
    (fun e => ⟨e.time + (c.start : Int) - (c.padding_left : Int), e.label⟩)

def scheme2_concat (time_radius : Int) (pairs : List (TimeChunk × List Event)) : List Event :=
  (pairs.map (fun p => chunk_output time_radius p.1 p.2)).flatten

theorem removeDupGo_cons_some (tol : Int) {anch : List (Nat × Int)} {e : Event} {a : Int}
    (hl : List.lookup e.label anch = some a) (rest : List Event) :
    removeDupGo tol anch (e :: rest)
      = if e.time ≤ a + tol then removeDupGo tol anch rest
        else e :: removeDupGo tol ((e.label, e.time) :: anch) rest := by
  simp only [removeDupGo]
  rw [hl]

theorem removeDupGo_cons_none (tol : Int) {anch : List (Nat × Int)} {e : Event}
    (hl : List.lookup e.label anch = none) (rest : List Event) :
    removeDupGo tol anch (e :: rest)
      = e :: removeDupGo tol ((e.label, e.time) :: anch) rest := by
  simp only [removeDupGo]
  rw [hl]

theorem removeDupGo_sublist (tol : Int) :
    ∀ (evs : List Event) (anch : List (Nat × Int)),
      (removeDupGo tol anch evs).Sublist evs := by
  intro evs
  induction evs with
  | nil => intro anch; simp [removeDupGo]
  | cons e rest ih =>
    intro anch
    cases hl : List.lookup e.label anch with
    | some a =>
      rw [removeDupGo_cons_some tol hl rest]
      by_cases h : e.time ≤ a + tol
      · rw [if_pos h]
        exact (ih anch).trans (List.sublist_cons_self e rest)
      · rw [if_neg h]
        exact (ih ((e.label, e.time) :: anch)).cons₂ e
    | none =>
      rw [removeDupGo_cons_none tol hl rest]
      exact (ih ((e.label, e.time) :: anch)).cons₂ e

theorem chunk_output_mem_range (time_radius : Int) (c : TimeChunk) (evs : List Event)
    (hse : c.start ≤ c.«end») :
    ∀ e ∈ chunk_output time_radius c evs,
      (c.start : Int) ≤ e.time ∧ e.time < (c.«end» : Int) := by
  intro e he
  simp only [chunk_output, List.mem_map, List.mem_filter] at he
  obtain ⟨e0, ⟨-, hcond⟩, rfl⟩ := he
  simp only [Bool.and_eq_true, decide_eq_true_eq, TimeChunk.total_size] at hcond
  obtain ⟨hc1, hc2⟩ := hcond
  constructor <;> simp only [] <;> omega

theorem chunk_output_sorted (time_radius : Int) (c : TimeChunk) (evs : List Event)
    (hs : List.Sorted (fun a b : Event => a.time ≤ b.time) evs) :
    List.Sorted (fun a b : Event => a.time ≤ b.time) (chunk_output time_radius c evs) := by
  unfold chunk_output
  have h1 : (remove_duplicate_events time_radius evs).Sublist evs :=
    removeDupGo_sublist time_radius evs []
  have h2 : ((remove_duplicate_events time_radius evs).filter (fun e =>
      decide ((c.padding_left : Int) ≤ e.time) &&
      decide (e.time < (c.total_size : Int) - (c.padding_right : Int)))).Sublist
        (remove_duplicate_events time_radius evs) := List.filter_sublist _
  have hpair := List.Pairwise.sublist (h2.trans h1) hs
  exact hpair.map _ (fun a b hab => by dsimp only at hab ⊢; omega)

theorem coresTile_bounds (N : Nat) :
    ∀ (cs : List TimeChunk) (pos : Nat), coresTile N pos cs →
      pos ≤ N ∧ ∀ c ∈ cs, pos ≤ c.start ∧ c.start < c.«end» ∧ c.«end» ≤ N := by
  intro cs
  induction cs with
  | nil =>
    intro pos h
    have h' : pos = N := h
    exact ⟨le_of_eq h', by simp⟩
  | cons c rest ih =>
    intro pos h
    obtain ⟨h1, h2, h3⟩ : c.start = pos ∧ pos < c.«end» ∧ coresTile N c.«end» rest := h
    obtain ⟨hN, hrest⟩ := ih c.«end» h3
    refine ⟨by omega, ?_⟩
    intro c' hc'
    rcases List.mem_cons.mp hc' with rfl | hc'
    · omega
    · obtain ⟨a, b, d⟩ := hrest c' hc'
      exact ⟨by omega, b, d⟩

theorem coresTile_unique_chunk (N : Nat) :
    ∀ (cs : List TimeChunk) (pos : Nat), coresTile N pos cs → ∀ t : Nat, pos ≤ t → t < N →
      (cs.filter (fun c => decide (c.start ≤ t) && decide (t < c.«end»))).length = 1 := by
  intro cs
  induction cs with
  | nil =>
    intro pos h t h1 h2
    have h' : pos = N := h
    omega
  | cons c rest ih =>
    intro pos h t h1 h2
    obtain ⟨hs, hlt, htile⟩ : c.start = pos ∧ pos < c.«end» ∧ coresTile N c.«end» rest := h
    rw [List.filter_cons]
    by_cases hin : t < c.«end»
    · have hcond : (decide (c.start ≤ t) && decide (t < c.«end»)) = true := by
        simp only [Bool.and_eq_true, decide_eq_true_eq]
        omega
      rw [if_pos hcond]
      simp only [List.length_cons]
      have hnil : rest.filter (fun c' => decide (c'.start ≤ t) && decide (t < c'.«end»)) = [] := by
        rw [List.filter_eq_nil_iff]
        intro c' hc'
        obtain ⟨ha, -, -⟩ := (coresTile_bounds N rest c.«end» htile).2 c' hc'
        simp only [Bool.and_eq_true, decide_eq_true_eq, not_and]
        intro hx
        omega
      rw [hnil]
      rfl
    · have hcond : ¬ ((decide (c.start ≤ t) && decide (t < c.«end»)) = true) := by
        simp only [Bool.and_eq_true, decide_eq_true_eq, not_and]
        intro hx
        omega
      rw [if_neg hcond]
      exact ih c.«end» htile t (by omega) h2

theorem scheme2_concat_sorted (time_radius : Int) (N : Nat) :
    ∀ (cs : List TimeChunk) (evss : List (List Event)) (pos : Nat),
      coresTile N pos cs →
      (∀ evs ∈ evss, List.Sorted (fun a b : Event => a.time ≤ b.time) evs) →
      List.Sorted (fun a b : Event => a.time ≤ b.time)
          (scheme2_concat time_radius (cs.zip evss)) ∧
        ∀ e ∈ scheme2_concat time_radius (cs.zip evss), (pos : Int) ≤ e.time := by
  intro cs
  induction cs with
  | nil =>
    intro evss pos _ _
    simp [scheme2_concat]
  | cons c rest ih =>
    intro evss pos htile hsort
    obtain ⟨hs, hlt, htile'⟩ : c.start = pos ∧ pos < c.«end» ∧ coresTile N c.«end» rest :=
      htile
    cases evss with
    | nil => simp [scheme2_concat]
    | cons evs evss' =>
      obtain ⟨ihs, ihb⟩ := ih evss' c.«end» htile'
        (fun l hl => hsort l (List.mem_cons_of_mem _ hl))
      have hrange := chunk_output_mem_range time_radius c evs (by omega)
      have hconcat : scheme2_concat time_radius ((c :: rest).zip (evs :: evss'))
          = chunk_output time_radius c evs ++ scheme2_concat time_radius (rest.zip evss') := by
        simp [scheme2_concat, List.zip_cons_cons]
      rw [hconcat]
      constructor
      · refine List.pairwise_append.mpr
          ⟨chunk_output_sorted time_radius c evs (hsort evs (List.mem_cons_self evs evss')),
            ihs, ?_⟩
        intro a ha b hb
        have h1 := (hrange a ha).2
        have h2 := ihb b hb
        show a.time ≤ b.time
        omega
      · intro e he
        rcases List.mem_append.mp he with h | h
        · have := (hrange e h).1
          omega
        · have := ihb e h
          omega

theorem get_time_chunks_sound (N csize pad : Nat) (cs : List TimeChunk)
    (h : get_time_chunks N csize pad = some cs) :
    coresTile N 0 cs ∧
      ∀ c ∈ cs, c.padding_left ≤ c.start ∧ c.«end» + c.padding_right ≤ N := by
  by_cases hc : 1 ≤ csize
  · exact getTimeChunksGo_sound N csize pad hc (N + 1) 0 cs (by omega) h
  · have hc0 : csize = 0 := by omega
    subst hc0
    by_cases hN : 0 < N
    · have hz := getTimeChunksGo_zero_chunk_size N pad (N + 1) 0 hN
      unfold get_time_chunks at h
      rw [hz] at h
      exact absurd h (by simp)
    · have hN0 : N = 0 := by omega
      subst hN0
      have h0 : get_time_chunks 0 0 pad = some [] := rfl
      rw [h0] at h
      cases h
      exact ⟨rfl, by simp⟩

/-- C6: for every chunk of a `get_time_chunks` plan, the orchestrator's
per-chunk tail (dedup with the detection time radius, keep exactly the
events with `padding_left ≤ t < total_size - padding_right`, translate
by `start - padding_left`) puts every kept event's global time inside
the chunk's core `[start, end)`; consequently, since the cores tile
`[0, N)`, each global time region is produced by exactly one chunk
(third conjunct: every global time `t < N` lies in the core of exactly
one chunk — a spike at a chunk boundary belongs to exactly one core, so
it is neither dropped nor duplicated by the margin trim), and the
concatenation of the per-chunk outputs in chunk order is globally
time-ascending. -/
theorem c6_chunk_stitching (N csize pad : Nat) (time_radius : Int)
    (cs : List TimeChunk) (evss : List (List Event))
    (hcs : get_time_chunks N csize pad = some cs)
    (hsort : ∀ evs ∈ evss, List.Sorted (fun a b : Event => a.time ≤ b.time) evs) :
    (∀ p ∈ cs.zip evss, ∀ e ∈ chunk_output time_radius p.1 p.2,
        (p.1.start : Int) ≤ e.time ∧ e.time < (p.1.«end» : Int)) ∧
      List.Sorted (fun a b : Event => a.time ≤ b.time)
        (scheme2_concat time_radius (cs.zip evss)) ∧
      (∀ t : Nat, t < N →
        (cs.filter (fun c => decide (c.start ≤ t) && decide (t < c.«end»))).length = 1) := by
  obtain ⟨htile, hpad⟩ := get_time_chunks_sound N csize pad cs hcs
  refine ⟨?_, (scheme2_concat_sorted time_radius N cs evss 0 htile hsort).1, ?_⟩
  · intro p hp e he
    obtain ⟨c, evs⟩ := p
    have hc : c ∈ cs := (List.of_mem_zip hp).1
    obtain ⟨-, hb, -⟩ := (coresTile_bounds N cs 0 htile).2 c hc
    exact chunk_output_mem_range time_radius c evs (by omega) e he
  · intro t ht
    exact coresTile_unique_chunk N cs 0 htile t (by omega) ht

/-- Witness for C6 on a 4-sample recording split into two 2-sample
chunks with padding 1, detection radius 5, and concrete per-chunk
event lists. -/
theorem c6_chunk_stitching_witness :
    get_time_chunks 4 2 1 = some [⟨0, 2, 0, 1⟩, ⟨2, 4, 1, 0⟩] ∧
      (∀ evs ∈ [[(⟨0, 1⟩ : Event), ⟨2, 1⟩], [⟨1, 2⟩]],
        List.Sorted (fun a b : Event => a.time ≤ b.time) evs) ∧
      ((∀ p ∈ ([⟨0, 2, 0, 1⟩, ⟨2, 4, 1, 0⟩] : List TimeChunk).zip
            [[(⟨0, 1⟩ : Event), ⟨2, 1⟩], [⟨1, 2⟩]],
          ∀ e ∈ chunk_output 5 p.1 p.2,
            (p.1.start : Int) ≤ e.time ∧ e.time < (p.1.«end» : Int)) ∧
        List.Sorted (fun a b : Event => a.time ≤ b.time)
          (scheme2_concat 5 (([⟨0, 2, 0, 1⟩, ⟨2, 4, 1, 0⟩] : List TimeChunk).zip
            [[(⟨0, 1⟩ : Event), ⟨2, 1⟩], [⟨1, 2⟩]])) ∧
        (∀ t : Nat, t < 4 →
          (([⟨0, 2, 0, 1⟩, ⟨2, 4, 1, 0⟩] : List TimeChunk).filter
            (fun c => decide (c.start ≤ t) && decide (t < c.«end»))).length = 1)) :=
  ⟨by decide, by decide,
    c6_chunk_stitching 4 2 1 5 [⟨0, 2, 0, 1⟩, ⟨2, 4, 1, 0⟩]
      [[⟨0, 1⟩, ⟨2, 1⟩], [⟨1, 2⟩]] (by decide) (by decide)⟩
